import Mathlib

/-!
Shallow embedding of the dictionary term-resolution engine of this repository
(`src-tauri/src/search_engine.rs` and `src-tauri/src/database.rs`), together
with theorems checking the specification's claims about it.

Modelling conventions:
* Rust `i64` identifiers become `Int` (the engine only compares them, never
  does arithmetic, so no wraparound is involved); `u64`/`usize` counters
  become `Nat` (they are only ever incremented).
* String normalisation (`trim` / `to_lowercase`) is modelled on the ASCII
  fragment, which is the fragment the engine's own data exercises.
* The SQLite-backed `Database` is modelled two ways, matching how the code
  uses it: for `SearchEngine::search` the store is an abstract function
  `String -> Except String (List DictionaryEntry)` (the exact shape of the
  Rust call `self.database.search_by_lemma(..) : Result<Vec<_>, _>`); for the
  claims about the SQL queries themselves the table is a list of rows in
  rowid order, the order SQLite scans when the query has no ORDER BY.
* Wall-clock timing (`search_time_ms`) is not modelled (`0`).
-/

namespace DictApp

/-- Model of `DictionaryEntry` from `database.rs` (field `lemma` is renamed to
`lemma_` because `lemma` is a declaration keyword here). -/
structure DictionaryEntry where
  id : Int
  lemma_ : String
  pos : String
  meanings : String
  definitions : String
  examples : String
  frequency_meaning : String
deriving DecidableEq

/-- Model of ASCII lowercasing of a string, the fragment of Rust
`str::to_lowercase` exercised by the engine. -/
def strLower (s : String) : String :=
  String.mk (s.data.map Char.toLower)

/-- Model of Rust `str::trim` (ASCII whitespace fragment). -/
def trimStr (s : String) : String :=
  String.mk (((s.data.dropWhile Char.isWhitespace).reverse.dropWhile Char.isWhitespace).reverse)

/-- Model of the query normalisation `term.trim().to_lowercase()` performed by
`SearchEngine::search`, `get_suggestions` and `get_inflections`. -/
def normalizeTerm (s : String) : String :=
  strLower (trimStr s)

/-- Abstract store: what one `Database::search_by_lemma` call returns
(`Result<Vec<DictionaryEntry>, _>` with a displayable error). -/
def Store : Type :=
  String → Except String (List DictionaryEntry)

/-- Model of the in-memory inflection map
`HashMap<String, Vec<(String, String)>>` as an association list; only its
lookup semantics are used by the engine. -/
def InflMap : Type :=
  List (String × List (String × String))

/-- Model of `HashMap::get` on the inflection map. -/
def lookupInfl (m : InflMap) (k : String) : Option (List (String × String)) :=
  (List.find? (fun p => p.1 == k) m).map (fun p => p.2)

/-- Model of the `SearchStats` counter block of `search_engine.rs`. -/
structure SearchStats where
  total_searches : Nat
  cache_hits : Nat
  inflection_lookups : Nat
  direct_lookups : Nat
deriving DecidableEq

/-- Model of `SearchResult` from `search_engine.rs`. -/
structure SearchResult where
  entries : List DictionaryEntry
  search_time_ms : Nat
  total_results : Nat
  query_used : String
  found_inflections : Bool
deriving DecidableEq

/-- Model of `SearchEngine::get_search_lemmas`: looks the (already normalised)
term up in the inflection map; on a hit it returns the mapped lemmas with
`true` and bumps the inflection-lookup counter once, otherwise it returns the
term itself with `false`. -/
def get_search_lemmas (m : InflMap) (stats : SearchStats) (term : String) :
    (List String × Bool) × SearchStats :=
  match lookupInfl m term with
  | some lemma_tags =>
      ((lemma_tags.map (fun lt => lt.1), true),
        { stats with inflection_lookups := stats.inflection_lookups + 1 })
  | none => (([term], false), stats)

/-- Model of the per-candidate loop of `SearchEngine::search` (lines 101-113):
first component collects `all_entries`, second collects `searched_terms`
(only lemmas that produced at least one entry), third is ghost
instrumentation recording every `search_by_lemma` call made, in order.
A store error is logged in the source and contributes nothing here. -/
def searchLoop (store : Store) : List String → List DictionaryEntry × List String × List String
  | [] => ([], [], [])
  | l :: rest =>
    let r := searchLoop store rest
    match store l with
    | Except.ok entries =>
        if entries.isEmpty then (r.1, r.2.1, l :: r.2.2)
        else (entries ++ r.1, l :: r.2.1, l :: r.2.2)
    | Except.error _ => (r.1, r.2.1, l :: r.2.2)

/-- Model of the direct-search fallback block of `SearchEngine::search`
(lines 116-128): one more store call on the normalised term, its error also
swallowed; the ghost call log records the call. -/
def directLookup (store : Store) (term : String)
    (acc : List DictionaryEntry × List String × List String) :
    List DictionaryEntry × List String × List String :=
  match store term with
  | Except.ok entries =>
      if entries.isEmpty then (acc.1, acc.2.1, acc.2.2 ++ [term])
      else (acc.1 ++ entries, acc.2.1 ++ [term], acc.2.2 ++ [term])
  | Except.error _ => (acc.1, acc.2.1, acc.2.2 ++ [term])

/-- Model of `all_entries.sort_by(|a, b| a.id.cmp(&b.id))` (a stable sort by
identifier). -/
def sortById (l : List DictionaryEntry) : List DictionaryEntry :=
  l.mergeSort (fun a b => a.id ≤ b.id)

/-- Helper for `dedupById`: Rust `Vec::dedup_by` keeps the first element of
each run of consecutive equal-id entries; `prev` is the last kept element. -/
def dedupByIdAux : DictionaryEntry → List DictionaryEntry → List DictionaryEntry
  | _, [] => []
  | prev, b :: rest =>
      if b.id == prev.id then dedupByIdAux prev rest
      else b :: dedupByIdAux b rest

/-- Model of `all_entries.dedup_by(|a, b| a.id == b.id)`. -/
def dedupById : List DictionaryEntry → List DictionaryEntry
  | [] => []
  | a :: rest => a :: dedupByIdAux a rest

/-- The merge-and-deduplicate step of `SearchEngine::search` (lines 134-138):
sort by identifier ascending, then drop consecutive duplicate identifiers. -/
def mergeDedup (l : List DictionaryEntry) : List DictionaryEntry :=
  dedupById (sortById l)

/-- Body of `SearchEngine::search` (lines 84-162). The Rust function's only
`return` is the final `Ok(SearchResult { .. })`; both store-error arms merely
log. The triple is (result, updated counters, ghost log of store calls). -/
def searchImpl (store : Store) (m : InflMap) (stats : SearchStats) (term : String) :
    SearchResult × SearchStats × List String :=
  let normalized_term := normalizeTerm term
  let stats1 := { stats with total_searches := stats.total_searches + 1 }
  let gl := get_search_lemmas m stats1 normalized_term
  let found_inflections := gl.1.2
  let loopRes := searchLoop store gl.1.1
  let afterFallback :=
    if loopRes.1.isEmpty && !found_inflections then
      (directLookup store normalized_term loopRes,
        { gl.2 with direct_lookups := gl.2.direct_lookups + 1 })
    else (loopRes, gl.2)
  let all_entries := mergeDedup afterFallback.1.1
  let searched_terms := afterFallback.1.2.1
  let query_used :=
    if searched_terms.isEmpty then normalized_term
    else String.intercalate ", " searched_terms
  ({ entries := all_entries
     search_time_ms := 0
     total_results := all_entries.length
     query_used := query_used
     found_inflections := found_inflections },
   afterFallback.2, afterFallback.1.2.2)

/-- Model of `SearchEngine::search` with its Rust result type
`Result<SearchResult, Box<dyn Error>>`; the body never produces the error
constructor. -/
def search (store : Store) (m : InflMap) (stats : SearchStats) (term : String) :
    Except String (SearchResult × SearchStats × List String) :=
  Except.ok (searchImpl store m stats term)

/-- Candidate lemma list of the expansion step (the value component of
`get_search_lemmas`), for use in statements. -/
def candidateLemmas (m : InflMap) (term : String) : List String :=
  match lookupInfl m term with
  | some lts => lts.map (fun lt => lt.1)
  | none => [term]

/-- Entries a store lookup contributes to the merge: an error contributes
none (the engine swallows it). -/
def entriesOrEmpty (r : Except String (List DictionaryEntry)) : List DictionaryEntry :=
  match r with
  | Except.ok es => es
  | Except.error _ => []

/-- Whether a given call takes the direct-lookup fallback branch: the loop over
the candidates produced no entry and no inflection mapping was found. -/
def fallbackTaken (store : Store) (m : InflMap) (term : String) : Bool :=
  (searchLoop store (candidateLemmas m (normalizeTerm term))).1.isEmpty
    && !(lookupInfl m (normalizeTerm term)).isSome

/-- A store agreeing with `store` except that every error is replaced by the
empty result list. -/
def errorsAsEmpty (store : Store) : Store := fun l =>
  match store l with
  | Except.ok es => Except.ok es
  | Except.error _ => Except.ok []

section BasicLemmas

theorem get_search_lemmas_fst (m : InflMap) (stats : SearchStats) (term : String) :
    (get_search_lemmas m stats term).1 = (candidateLemmas m term, (lookupInfl m term).isSome) := by
  unfold get_search_lemmas candidateLemmas
  cases lookupInfl m term <;> rfl

theorem get_search_lemmas_snd (m : InflMap) (stats : SearchStats) (term : String) :
    (get_search_lemmas m stats term).2 =
      if (lookupInfl m term).isSome then
        { stats with inflection_lookups := stats.inflection_lookups + 1 }
      else stats := by
  unfold get_search_lemmas
  cases lookupInfl m term <;> rfl

theorem searchLoop_eq_errorsAsEmpty (store : Store) (ls : List String) :
    searchLoop (errorsAsEmpty store) ls = searchLoop store ls := by
  induction ls with
  | nil => rfl
  | cons l rest ih =>
      simp only [searchLoop, ih]
      cases h : store l with
      | ok es => simp [errorsAsEmpty, h]
      | error e => simp [errorsAsEmpty, h]

theorem directLookup_eq_errorsAsEmpty (store : Store) (term : String)
    (acc : List DictionaryEntry × List String × List String) :
    directLookup (errorsAsEmpty store) term acc = directLookup store term acc := by
  unfold directLookup errorsAsEmpty
  cases h : store term with
  | ok es => simp [h]
  | error e => simp [h]

end BasicLemmas

/-- Claim C4: the `found_inflections` flag of the result of
`SearchEngine::search` is `true` exactly when the inflection map contains an
entry for the trimmed, lowercased query term, independently of whether any
candidate lemma produced store hits. -/
theorem search_found_inflections_iff (store : Store) (m : InflMap)
    (stats : SearchStats) (term : String) :
    (searchImpl store m stats term).1.found_inflections =
      (lookupInfl m (normalizeTerm term)).isSome := by
  unfold searchImpl
  cases h : lookupInfl m (normalizeTerm term) <;>
    simp [get_search_lemmas, h]

/-- Claim C10: the `total_results` field of the result of
`SearchEngine::search` always equals the length of its `entries` list (both
are taken from the merged, deduplicated `all_entries`). -/
theorem search_total_results_eq_length (store : Store) (m : InflMap)
    (stats : SearchStats) (term : String) :
    (searchImpl store m stats term).1.total_results =
      (searchImpl store m stats term).1.entries.length := rfl

/-- Claim C8 (amended): `SearchEngine::search` never returns an error: every
store error — including the one of the single lookup for a term with no
inflection candidates, and the fallback lookup's — is swallowed (only logged)
and treated as zero entries, so the call behaves exactly as if the store had
returned empty results, and the only constructor ever returned is `Ok`. -/
theorem search_never_errors (store : Store) (m : InflMap)
    (stats : SearchStats) (term : String) :
    (search store m stats term).isOk = true ∧
      search store m stats term = search (errorsAsEmpty store) m stats term := by
  constructor
  · rfl
  · unfold search searchImpl
    simp only [searchLoop_eq_errorsAsEmpty, directLookup_eq_errorsAsEmpty]

/-- A store whose every lookup fails, for the C8 counterexample. -/
def failingStore : Store := fun _ => Except.error "db unavailable"

/-- Claim C8 (counterexample): for the term `"xyzzy"`, which has no inflection
candidates (`lookupInfl` misses) and whose single store lookup errors, the
claim says `search` must surface the store error; instead `search` returns
`Ok`, so the claim as stated is false. -/
theorem search_error_swallowed_cex :
    lookupInfl [] (normalizeTerm "xyzzy") = none ∧
      failingStore (normalizeTerm "xyzzy") = Except.error "db unavailable" ∧
      (search failingStore [] ⟨0, 0, 0, 0⟩ "xyzzy").isOk = true :=
  ⟨rfl, rfl, rfl⟩

theorem searchImpl_stats_eq (store : Store) (m : InflMap)
    (stats : SearchStats) (term : String) :
    (searchImpl store m stats term).2.1 =
      { total_searches := stats.total_searches + 1
        cache_hits := stats.cache_hits
        inflection_lookups := stats.inflection_lookups +
          (if (lookupInfl m (normalizeTerm term)).isSome then 1 else 0)
        direct_lookups := stats.direct_lookups +
          (if fallbackTaken store m term then 1 else 0) } := by
  unfold searchImpl fallbackTaken candidateLemmas
  cases h : lookupInfl m (normalizeTerm term) with
  | some lts =>
      simp [get_search_lemmas, h]
  | none =>
      by_cases hempty : (searchLoop store [normalizeTerm term]).1.isEmpty
      · simp [get_search_lemmas, h, hempty]
      · simp [get_search_lemmas, h, hempty]

/-- Claim C9: per `search` call, `total_searches` is incremented exactly once;
`inflection_lookups` exactly once when the normalised term has an inflection
mapping (a multi-lemma expansion still counts once) and not otherwise;
`direct_lookups` exactly once when the fallback branch runs and not
otherwise; `cache_hits` is untouched; no counter is ever decremented. -/
theorem search_stats_increments (store : Store) (m : InflMap)
    (stats : SearchStats) (term : String) :
    (searchImpl store m stats term).2.1 =
      { total_searches := stats.total_searches + 1
        cache_hits := stats.cache_hits
        inflection_lookups := stats.inflection_lookups +
          (if (lookupInfl m (normalizeTerm term)).isSome then 1 else 0)
        direct_lookups := stats.direct_lookups +
          (if fallbackTaken store m term then 1 else 0) } :=
  searchImpl_stats_eq store m stats term

section SortDedupLemmas

theorem sortById_pairwise (l : List DictionaryEntry) :
    (sortById l).Pairwise (fun a b => a.id ≤ b.id) := by
  unfold sortById
  have h := List.sorted_mergeSort
    (fun (a b c : DictionaryEntry) (hab : decide (a.id ≤ b.id) = true)
        (hbc : decide (b.id ≤ c.id) = true) => by
      simp only [decide_eq_true_eq] at hab hbc ⊢
      exact le_trans hab hbc)
    (fun (a b : DictionaryEntry) => by
      simp only [Bool.or_eq_true, decide_eq_true_eq]
      exact le_total a.id b.id)
    l
  exact h.imp (fun hab => by simpa using hab)

theorem sortById_perm (l : List DictionaryEntry) : (sortById l).Perm l :=
  List.mergeSort_perm l _

theorem mem_dedupByIdAux (prev : DictionaryEntry) (l : List DictionaryEntry) :
    ∀ e ∈ dedupByIdAux prev l, e ∈ l := by
  induction l generalizing prev with
  | nil => intro e he; simp [dedupByIdAux] at he
  | cons b rest ih =>
      intro e he
      by_cases hb : (b.id == prev.id) = true
      · simp only [dedupByIdAux, hb, if_true] at he
        exact List.mem_cons_of_mem _ (ih prev e he)
      · simp only [dedupByIdAux, hb, if_false, Bool.false_eq_true] at he
        rcases List.mem_cons.mp he with rfl | htail
        · exact List.mem_cons_self _ _
        · exact List.mem_cons_of_mem _ (ih b e htail)

theorem dedupByIdAux_cover (l : List DictionaryEntry) (prev : DictionaryEntry)
    (e : DictionaryEntry) (he : e ∈ l) :
    ∃ x ∈ prev :: dedupByIdAux prev l, x.id = e.id := by
  induction l generalizing prev with
  | nil => cases he
  | cons b rest ih =>
      by_cases hb : (b.id == prev.id) = true
      · have hbeq : b.id = prev.id := by simpa using hb
        simp only [dedupByIdAux, hb, if_true]
        rcases List.mem_cons.mp he with rfl | htail
        · exact ⟨prev, List.mem_cons_self _ _, hbeq.symm⟩
        · exact ih prev htail
      · simp only [dedupByIdAux, hb, if_false, Bool.false_eq_true]
        rcases List.mem_cons.mp he with rfl | htail
        · exact ⟨e, List.mem_cons_of_mem _ (List.mem_cons_self _ _), rfl⟩
        · rcases ih b htail with ⟨x, hx, hxid⟩
          rcases List.mem_cons.mp hx with rfl | hx2
          · exact ⟨x, List.mem_cons_of_mem _ (List.mem_cons_self _ _), hxid⟩
          · exact ⟨x, List.mem_cons_of_mem _ (List.mem_cons_of_mem _ hx2), hxid⟩

theorem dedupByIdAux_chain (l : List DictionaryEntry) (prev : DictionaryEntry)
    (hp : l.Pairwise (fun a b => a.id ≤ b.id))
    (hb : ∀ x ∈ l, prev.id ≤ x.id) :
    ((prev :: dedupByIdAux prev l).map (fun e => e.id)).Chain' (· < ·) := by
  induction l generalizing prev with
  | nil => simp [dedupByIdAux]
  | cons b rest ih =>
      rcases List.pairwise_cons.mp hp with ⟨hbrest, hprest⟩
      by_cases hid : (b.id == prev.id) = true
      · have hbeq : b.id = prev.id := by simpa using hid
        simp only [dedupByIdAux, hid, if_true]
        exact ih prev hprest (fun x hx => hbeq ▸ hbrest x hx)
      · have hne : ¬ b.id = prev.id := by simpa using hid
        have hlt : prev.id < b.id :=
          lt_of_le_of_ne (hb b (List.mem_cons_self _ _)) (fun h => hne h.symm)
        simp only [dedupByIdAux, hid, if_false, Bool.false_eq_true, List.map_cons]
        exact List.chain'_cons.mpr ⟨hlt, by
          have := ih b hprest hbrest
          simpa [List.map_cons] using this⟩

theorem mergeDedup_pairwise_lt (l : List DictionaryEntry) :
    ((mergeDedup l).map (fun e => e.id)).Pairwise (· < ·) := by
  unfold mergeDedup
  cases h : sortById l with
  | nil => simp [dedupById]
  | cons a rest =>
      have hp := sortById_pairwise l
      rw [h] at hp
      rcases List.pairwise_cons.mp hp with ⟨harest, hprest⟩
      have hchain := dedupByIdAux_chain rest a hprest harest
      rw [List.chain'_iff_pairwise] at hchain
      simpa [dedupById] using hchain

theorem mergeDedup_subset (l : List DictionaryEntry) :
    ∀ e ∈ mergeDedup l, e ∈ l := by
  intro e he
  unfold mergeDedup at he
  have hs : e ∈ sortById l := by
    cases h : sortById l with
    | nil => rw [h] at he; simp [dedupById] at he
    | cons a rest =>
        rw [h] at he
        simp only [dedupById] at he
        rcases List.mem_cons.mp he with rfl | htail
        · exact List.mem_cons_self _ _
        · exact List.mem_cons_of_mem _ (mem_dedupByIdAux a rest e htail)
  exact (sortById_perm l).mem_iff.mp hs

theorem mergeDedup_cover (l : List DictionaryEntry) (e : DictionaryEntry)
    (he : e ∈ l) : ∃ x ∈ mergeDedup l, x.id = e.id := by
  have hs : e ∈ sortById l := (sortById_perm l).mem_iff.mpr he
  unfold mergeDedup
  cases h : sortById l with
  | nil => rw [h] at hs; cases hs
  | cons a rest =>
      rw [h] at hs
      rcases List.mem_cons.mp hs with rfl | htail
      · exact ⟨e, by simp [dedupById], rfl⟩
      · have hcov := dedupByIdAux_cover rest a e htail
        simpa [dedupById] using hcov

end SortDedupLemmas

section LoopLemmas

theorem searchLoop_fst_mem (store : Store) (ls : List String) (e : DictionaryEntry) :
    e ∈ (searchLoop store ls).1 ↔ ∃ l ∈ ls, e ∈ entriesOrEmpty (store l) := by
  induction ls with
  | nil => simp [searchLoop]
  | cons l rest ih =>
      cases h : store l with
      | ok es =>
          by_cases hes : es.isEmpty
          · have hnil : es = [] := by simpa using hes
            simp [searchLoop, h, hes, entriesOrEmpty, ih, hnil]
          · simp [searchLoop, h, hes, entriesOrEmpty, ih, List.mem_append, or_assoc]
      | error msg =>
          simp [searchLoop, h, entriesOrEmpty, ih]

theorem searchLoop_all_empty (store : Store) (ls : List String)
    (h : ∀ l ∈ ls, store l = Except.ok []) :
    searchLoop store ls = ([], [], ls) := by
  induction ls with
  | nil => rfl
  | cons l rest ih =>
      have hl := h l (List.mem_cons_self _ _)
      have hrest := ih (fun x hx => h x (List.mem_cons_of_mem _ hx))
      simp [searchLoop, hl, hrest]

theorem searchImpl_of_found (store : Store) (m : InflMap) (stats : SearchStats)
    (term : String) (lts : List (String × String))
    (hm : lookupInfl m (normalizeTerm term) = some lts) :
    (searchImpl store m stats term).1.entries =
        mergeDedup (searchLoop store (lts.map (fun lt => lt.1))).1 ∧
      (searchImpl store m stats term).2.2 =
        (searchLoop store (lts.map (fun lt => lt.1))).2.2 := by
  unfold searchImpl
  simp [get_search_lemmas, hm]

end LoopLemmas

/-- Claim C3: the entries of the result of `SearchEngine::search` never
contain two records with the same identifier: the merged list is sorted by
identifier ascending and then deduplicated by identifier, so its identifier
list is strictly increasing. -/
theorem search_entries_ids_strict_sorted (store : Store) (m : InflMap)
    (stats : SearchStats) (term : String) :
    ((searchImpl store m stats term).1.entries.map (fun e => e.id)).Pairwise (· < ·) := by
  unfold searchImpl
  exact mergeDedup_pairwise_lt _

/-- Claim C1: for a term whose normalised form has an inflection mapping to
lemmas `L1..Ln`, each of which the store answers without error, `search`
returns exactly the union keyed by identifier of the per-lemma store results:
every returned entry comes from some `search_by_lemma(Li)`, every entry of
every `search_by_lemma(Li)` is represented by identifier, and no identifier
appears twice. -/
theorem search_inflection_union (store : Store) (m : InflMap) (stats : SearchStats)
    (term : String) (lts : List (String × String))
    (hm : lookupInfl m (normalizeTerm term) = some lts)
    (hok : ∀ l ∈ lts.map (fun lt => lt.1), (store l).isOk = true) :
    (∀ e ∈ (searchImpl store m stats term).1.entries,
        ∃ l ∈ lts.map (fun lt => lt.1), e ∈ entriesOrEmpty (store l)) ∧
      (∀ l ∈ lts.map (fun lt => lt.1), ∀ e ∈ entriesOrEmpty (store l),
        ∃ x ∈ (searchImpl store m stats term).1.entries, x.id = e.id) ∧
      ((searchImpl store m stats term).1.entries.map (fun e => e.id)).Nodup := by
  have hent := (searchImpl_of_found store m stats term lts hm).1
  rw [hent]
  refine ⟨?_, ?_, ?_⟩
  · intro e he
    exact (searchLoop_fst_mem store _ e).mp (mergeDedup_subset _ e he)
  · intro l hl e he
    exact mergeDedup_cover _ e ((searchLoop_fst_mem store _ e).mpr ⟨l, hl, he⟩)
  · exact (mergeDedup_pairwise_lt _).imp (fun h => ne_of_lt h)

/-- Witness entry (id 5, lemma `run`) for the C1 witness. -/
def wEntry : DictionaryEntry := ⟨5, "run", "verb", "", "", "", ""⟩

/-- Witness store answering `run` with one entry and everything else with
zero entries. -/
def wStore : Store := fun l => if l == "run" then Except.ok [wEntry] else Except.ok []

/-- Witness inflection map sending `running` to the single lemma `run`. -/
def wMap : InflMap := [("running", [("run", "VBG")])]

/-- Witness for claim C1 at the concrete inputs `wStore`, `wMap`,
term `"Running"`. -/
theorem search_inflection_union_witness :
    lookupInfl wMap (normalizeTerm "Running") = some [("run", "VBG")] ∧
      (∀ l ∈ [("run", "VBG")].map (fun lt => lt.1), (wStore l).isOk = true) ∧
      ((∀ e ∈ (searchImpl wStore wMap ⟨0, 0, 0, 0⟩ "Running").1.entries,
          ∃ l ∈ [("run", "VBG")].map (fun lt => lt.1), e ∈ entriesOrEmpty (wStore l)) ∧
        (∀ l ∈ [("run", "VBG")].map (fun lt => lt.1), ∀ e ∈ entriesOrEmpty (wStore l),
          ∃ x ∈ (searchImpl wStore wMap ⟨0, 0, 0, 0⟩ "Running").1.entries, x.id = e.id) ∧
        ((searchImpl wStore wMap ⟨0, 0, 0, 0⟩ "Running").1.entries.map (fun e => e.id)).Nodup) := by
  have hm : lookupInfl wMap (normalizeTerm "Running") = some [("run", "VBG")] := by decide
  have hok : ∀ l ∈ [("run", "VBG")].map (fun lt => lt.1), (wStore l).isOk = true := by decide
  exact ⟨hm, hok, search_inflection_union wStore wMap ⟨0, 0, 0, 0⟩ "Running" [("run", "VBG")] hm hok⟩

/-- Witness store for C2 answering every lemma with zero entries. -/
def wStoreEmpty : Store := fun _ => Except.ok []

/-- Claim C2: for a term whose normalised form has an inflection mapping but
whose every candidate lemma yields zero store entries, `search` returns zero
entries, performs no store call beyond the one per candidate lemma (in
particular no additional direct lookup of the normalised term), and leaves
the direct-lookup counter unchanged. -/
theorem search_no_fallback_on_inflection (store : Store) (m : InflMap)
    (stats : SearchStats) (term : String) (lts : List (String × String))
    (hm : lookupInfl m (normalizeTerm term) = some lts)
    (hempty : ∀ l ∈ lts.map (fun lt => lt.1), store l = Except.ok []) :
    (searchImpl store m stats term).1.entries = [] ∧
      (searchImpl store m stats term).2.2 = lts.map (fun lt => lt.1) ∧
      (searchImpl store m stats term).2.1.direct_lookups = stats.direct_lookups := by
  have hloop := searchLoop_all_empty store (lts.map (fun lt => lt.1)) hempty
  have hpair := searchImpl_of_found store m stats term lts hm
  refine ⟨?_, ?_, ?_⟩
  · rw [hpair.1, hloop]
    simp [mergeDedup, sortById, dedupById]
  · rw [hpair.2, hloop]
  · rw [searchImpl_stats_eq]
    have hfb : fallbackTaken store m term = false := by
      unfold fallbackTaken
      simp [hm]
    simp [hfb]

/-- Witness for claim C2 at the concrete inputs `wStoreEmpty`, `wMap`,
term `"running"`. -/
theorem search_no_fallback_on_inflection_witness :
    lookupInfl wMap (normalizeTerm "running") = some [("run", "VBG")] ∧
      (∀ l ∈ [("run", "VBG")].map (fun lt => lt.1), wStoreEmpty l = Except.ok []) ∧
      ((searchImpl wStoreEmpty wMap ⟨0, 0, 0, 0⟩ "running").1.entries = [] ∧
        (searchImpl wStoreEmpty wMap ⟨0, 0, 0, 0⟩ "running").2.2 = [("run", "VBG")].map (fun lt => lt.1) ∧
        (searchImpl wStoreEmpty wMap ⟨0, 0, 0, 0⟩ "running").2.1.direct_lookups = 0) := by
  have hm : lookupInfl wMap (normalizeTerm "running") = some [("run", "VBG")] := by decide
  have hempty : ∀ l ∈ [("run", "VBG")].map (fun lt => lt.1), wStoreEmpty l = Except.ok [] := by
    intro l _
    rfl
  exact ⟨hm, hempty,
    search_no_fallback_on_inflection wStoreEmpty wMap ⟨0, 0, 0, 0⟩ "running" [("run", "VBG")] hm hempty⟩

/-! The claims about the SQL queries themselves (`Database::search_by_lemma`
and `Database::search_by_prefix`) are settled over a table model: the list of
rows in rowid order, which is the order SQLite scans (and returns) when a
query has no ORDER BY, as is the case for both queries here. -/

/-- Model of `Database::search_by_lemma`: the SQL is
`SELECT id, lemma, pos, meanings, definitions, examples, frequency_meaning
FROM dictionary_entries WHERE lemma = ?1` with no ORDER BY, i.e. exactly the
rows whose lemma equals the key, in table order. -/
def search_by_lemma (table : List DictionaryEntry) (term : String) : List DictionaryEntry :=
  table.filter (fun e => e.lemma_ == term)

/-- Digit-string parser interpreting the textual `frequency_meaning` field as
a numeric rank where possible; used only to state the spec's claimed ordering
(the claim speaks of a frequency/rank field "when present"). -/
def parseDigits : List Char → Nat → Option Nat
  | [], acc => some acc
  | c :: rest, acc =>
      if c.isDigit then parseDigits rest (acc * 10 + (c.toNat - 48)) else none

/-- Option-valued numeric reading of the frequency field. -/
def parseNatStr (s : String) : Option Nat :=
  if s.data.isEmpty then none else parseDigits s.data 0

/-- Necessary condition of the ordering the claim requires of
`find_by_lemma` results, independent of any tie-break choice: frequency/rank
descending whenever both entries carry a rank, and entries lacking a rank
after those carrying one. Equal ranks are unconstrained here, since the claim
allows an arbitrary deterministic tie-break; every ordering satisfying the
claim satisfies this condition. -/
def specFreqDescB (a b : DictionaryEntry) : Bool :=
  match parseNatStr a.frequency_meaning, parseNatStr b.frequency_meaning with
  | some x, some y => y ≤ x
  | some _, none => true
  | none, some _ => false
  | none, none => true

/-- Concrete two-row table for the C5 counterexample: both rows share the
lemma `run` and sit in rowid order with distinct frequency texts `1` then
`3`. -/
def cexTable : List DictionaryEntry :=
  [⟨1, "run", "verb", "", "", "", "1"⟩, ⟨2, "run", "noun", "", "", "", "3"⟩]

/-- Claim C5 (counterexample): the SQL of `search_by_lemma` has no ORDER BY,
so on a table holding two `run` rows in rowid order with distinct frequencies
1 then 3 the result keeps table order, placing rank 1 before rank 3. Any
ordering satisfying the claim must place rank 3 first no matter how ties
would be broken, so the claimed frequency-descending ordering fails at this
input. -/
theorem search_by_lemma_order_cex :
    ¬ ((search_by_lemma cexTable "run").Pairwise (fun a b => specFreqDescB a b = true)) := by
  decide

/-- Claim C5 (amended): `search_by_lemma` returns exactly the rows whose
lemma equals the key — every matching row, nothing else — in table (rowid)
order, with no frequency or identifier reordering applied. -/
theorem search_by_lemma_filter_spec (table : List DictionaryEntry) (term : String) :
    (search_by_lemma table term).Sublist table ∧
      (∀ e ∈ search_by_lemma table term, e.lemma_ = term) ∧
      (∀ e ∈ table, e.lemma_ = term → e ∈ search_by_lemma table term) := by
  refine ⟨List.filter_sublist table, ?_, ?_⟩
  · intro e he
    have hmem := (List.mem_filter.mp he).2
    simpa using hmem
  · intro e he heq
    exact List.mem_filter.mpr ⟨he, by simpa using heq⟩

/-- Model of SQLite `LIKE` matching (ASCII-case-insensitive, `%` matching any
sequence and `_` any single character), with explicit fuel; each step consumes
a pattern or subject character, so `pattern.length + subject.length + 1`
always suffices. -/
def likeMatchAux : Nat → List Char → List Char → Bool
  | 0, _, _ => false
  | _ + 1, [], s => s.isEmpty
  | fuel + 1, p :: ps, s =>
      if p = '%' then
        likeMatchAux fuel ps s ||
          (match s with
           | [] => false
           | _ :: s2 => likeMatchAux fuel (p :: ps) s2)
      else
        match s with
        | [] => false
        | c :: s2 =>
            (if p = '_' then true else p.toLower == c.toLower) && likeMatchAux fuel ps s2

/-- SQLite `LIKE` with sufficient fuel. -/
def likeMatch (p s : List Char) : Bool :=
  likeMatchAux (p.length + s.length + 1) p s

/-- Model of SQL `DISTINCT`, keeping the first occurrence of each value in
scan order; `seen` accumulates the values already emitted. -/
def distinctKeepFirst : List String → List String → List String
  | _, [] => []
  | seen, x :: xs =>
      if x ∈ seen then distinctKeepFirst seen xs
      else x :: distinctKeepFirst (x :: seen) xs

/-- Model of `Database::search_by_prefix`:
`SELECT DISTINCT lemma FROM dictionary_entries WHERE lemma LIKE ?1 ||
PERCENT LIMIT ?2` over the table in rowid order. -/
def search_by_prefix (table : List DictionaryEntry) (p : String) (limit : Nat) : List String :=
  (distinctKeepFirst []
    ((table.filter (fun e => likeMatch (p ++ "%").data e.lemma_.data)).map
      (fun e => e.lemma_))).take limit

/-- Body of `SearchEngine::get_suggestions`: normalise the prefix
(`prefix.trim().to_lowercase()`) and query the store. -/
def suggestImpl (table : List DictionaryEntry) (p : String) (limit : Nat) : List String :=
  search_by_prefix table (normalizeTerm p) limit

/-- Model of `SearchEngine::get_suggestions` with its Rust result type; when
the store query succeeds it returns the suggestion list unchanged. -/
def get_suggestions (table : List DictionaryEntry) (p : String) (limit : Nat) :
    Except String (List String) :=
  Except.ok (suggestImpl table p limit)

/-- Boolean test that `s` starts, ASCII-case-insensitively, with `p`. -/
def startsWithCI (p s : String) : Bool :=
  (p.data.map Char.toLower).isPrefixOf (s.data.map Char.toLower)

/-- Concrete one-row table for the C6 counterexample and witness. -/
def cexTable6 : List DictionaryEntry :=
  [⟨1, "banana", "noun", "", "", "", ""⟩]

/-- Claim C6 (counterexample): the prefix is spliced unescaped into the LIKE
pattern, so the wildcard prefix `"%"` matches every lemma: the suggestion
list contains `banana`, which does not case-insensitively start with `"%"`,
refuting the claim that every returned string starts with the prefix. -/
theorem get_suggestions_wildcard_cex :
    suggestImpl cexTable6 "%" 10 = ["banana"] ∧
      get_suggestions cexTable6 "%" 10 = Except.ok ["banana"] ∧
      startsWithCI "%" "banana" = false := by
  have h1 : suggestImpl cexTable6 "%" 10 = ["banana"] := by decide
  exact ⟨h1, congrArg Except.ok h1, by decide⟩

theorem mem_distinctKeepFirst (seen : List String) (l : List String) :
    ∀ x ∈ distinctKeepFirst seen l, x ∈ l := by
  induction l generalizing seen with
  | nil => intro x hx; simp [distinctKeepFirst] at hx
  | cons a rest ih =>
      intro x hx
      by_cases ha : a ∈ seen
      · simp only [distinctKeepFirst, if_pos ha] at hx
        exact List.mem_cons_of_mem _ (ih seen x hx)
      · simp only [distinctKeepFirst, if_neg ha] at hx
        rcases List.mem_cons.mp hx with rfl | h2
        · exact List.mem_cons_self _ _
        · exact List.mem_cons_of_mem _ (ih _ x h2)

theorem likeMatchAux_prefix (fuel : Nat) (q s : List Char)
    (hq : ∀ c ∈ q, c ≠ '%' ∧ c ≠ '_')
    (h : likeMatchAux fuel (q ++ ['%']) s = true) :
    (q.map Char.toLower).isPrefixOf (s.map Char.toLower) = true := by
  induction fuel generalizing q s with
  | zero => simp [likeMatchAux] at h
  | succ fuel ih =>
      cases q with
      | nil => simp [List.isPrefixOf]
      | cons c q2 =>
          rcases hq c (List.mem_cons_self _ _) with ⟨hc1, hc2⟩
          cases s with
          | nil =>
              simp [likeMatchAux, hc1] at h
          | cons d s2 =>
              simp only [List.cons_append, likeMatchAux, if_neg hc1, if_neg hc2,
                Bool.true_and, Bool.and_eq_true] at h
              have hrest := ih q2 s2 (fun x hx => hq x (List.mem_cons_of_mem _ hx)) h.2
              simp only [List.map_cons, List.isPrefixOf_cons₂, Bool.and_eq_true]
              exact ⟨h.1, hrest⟩

/-- Claim C6 (amended): provided the trimmed, lowercased prefix contains no
LIKE wildcard character (`%` or `_`), `get_suggestions` returns at most
`limit` strings, every returned string case-insensitively starts with the
normalised prefix, and a limit of 0 yields the empty sequence rather than an
error. -/
theorem get_suggestions_bounded (table : List DictionaryEntry) (p : String) (limit : Nat)
    (hmeta : ∀ c ∈ (normalizeTerm p).data, c ≠ '%' ∧ c ≠ '_') :
    (suggestImpl table p limit).length ≤ limit ∧
      (∀ s ∈ suggestImpl table p limit, startsWithCI (normalizeTerm p) s = true) ∧
      (limit = 0 → suggestImpl table p limit = []) := by
  refine ⟨?_, ?_, ?_⟩
  · exact List.length_take_le _ _
  · intro s hs
    have hs2 : s ∈ distinctKeepFirst []
        ((table.filter (fun e => likeMatch ((normalizeTerm p) ++ "%").data e.lemma_.data)).map
          (fun e => e.lemma_)) :=
      (List.take_sublist _ _).mem hs
    have hs3 := mem_distinctKeepFirst _ _ s hs2
    rcases List.mem_map.mp hs3 with ⟨e, hefil, rfl⟩
    have hlike := (List.mem_filter.mp hefil).2
    have hdata : ((normalizeTerm p) ++ "%").data = (normalizeTerm p).data ++ ['%'] := by
      rw [String.data_append]
    rw [hdata] at hlike
    exact likeMatchAux_prefix _ _ _ hmeta hlike
  · intro h0
    subst h0
    simp [suggestImpl, search_by_prefix]

/-- Witness for claim C6 (amended) at the concrete inputs `cexTable6`, prefix
`"ban"`, limit 10. -/
theorem get_suggestions_bounded_witness :
    (∀ c ∈ (normalizeTerm "ban").data, c ≠ '%' ∧ c ≠ '_') ∧
      ((suggestImpl cexTable6 "ban" 10).length ≤ 10 ∧
        (∀ s ∈ suggestImpl cexTable6 "ban" 10, startsWithCI (normalizeTerm "ban") s = true) ∧
        (10 = 0 → suggestImpl cexTable6 "ban" 10 = [])) := by
  have hmeta : ∀ c ∈ (normalizeTerm "ban").data, c ≠ '%' ∧ c ≠ '_' := by decide
  exact ⟨hmeta, get_suggestions_bounded cexTable6 "ban" 10 hmeta⟩

/-! Model of `SearchEngine::load_inflection_map`. The `fs::read_to_string`
I/O (the loader's only failure path) is outside the embedding; the function
receives the file's lines, as produced by `content.lines()`. -/

/-- Model of Rust `line.split('\t')`: the accumulator collects the current
field's characters in reverse. -/
def splitTab : List Char → List Char → List String
  | [], acc => [String.mk acc.reverse]
  | c :: rest, acc =>
      if c = '\t' then String.mk acc.reverse :: splitTab rest []
      else splitTab rest (c :: acc)

/-- Model of Rust `line.starts_with('#')`. -/
def lineStartsHash (line : String) : Bool :=
  match line.data with
  | c :: _ => c == '#'
  | [] => false

/-- Model of `inflection_map.entry(inflected).or_insert_with(Vec::new)
.push((lemma, tag))` on the association-list map: append to the first pair
with this key, or add a new key at the end. -/
def mapAppend : InflMap → String → (String × String) → InflMap
  | [], k, v => [(k, [v])]
  | p :: rest, k, v =>
      if p.1 == k then (p.1, p.2 ++ [v]) :: rest
      else p :: mapAppend rest k v

/-- One iteration of the `load_inflection_map` line loop: skip blank and
`#`-prefixed lines, skip lines with fewer than three tab-separated fields
(warning only in the source), otherwise lowercase the inflected form and the
lemma and append `(lemma, tag)` under the inflected form. -/
def processLine (m : InflMap) (line : String) : InflMap :=
  if (trimStr line).data.isEmpty || lineStartsHash line then m
  else
    match splitTab line.data [] with
    | a :: b :: c :: _ => mapAppend m (strLower a) (strLower b, c)
    | _ => m

/-- Model of `SearchEngine::load_inflection_map` over the file's lines; the
parse loop has no failure path, hence the unconditional `Ok`. -/
def load_inflection_map (lines : List String) : Except String InflMap :=
  Except.ok (lines.foldl processLine [])

/-- The loader's well-formed-line test, as a single parse function: `none`
for blank, comment and fewer-than-three-field lines, otherwise the lowercased
inflected form, lowercased lemma and raw tag. -/
def parseLine (line : String) : Option (String × String × String) :=
  if (trimStr line).data.isEmpty || lineStartsHash line then none
  else
    match splitTab line.data [] with
    | a :: b :: c :: _ => some (strLower a, strLower b, c)
    | _ => none

/-- The `(lemma, tag)` pairs a single line contributes under key `k`. -/
def lineTriples (k : String) (line : String) : List (String × String) :=
  match parseLine line with
  | some t => if t.1 = k then [(t.2.1, t.2.2)] else []
  | none => []

/-- The `(lemma, tag)` pairs the well-formed lines contribute under key `k`,
in file order. -/
def wellFormedValues (k : String) (lines : List String) : List (String × String) :=
  (lines.filterMap parseLine).filterMap
    (fun t => if t.1 = k then some (t.2.1, t.2.2) else none)

/-- Composition of an existing optional candidate list with newly appended
values, mirroring what repeated `mapAppend` does to one key's lookup. -/
def combineOpt (o : Option (List (String × String))) (vs : List (String × String)) :
    Option (List (String × String)) :=
  match o with
  | some xs => some (xs ++ vs)
  | none => if vs.isEmpty then none else some vs

theorem combineOpt_nil (o : Option (List (String × String))) : combineOpt o [] = o := by
  cases o <;> simp [combineOpt]

theorem combineOpt_assoc (o : Option (List (String × String)))
    (v1 v2 : List (String × String)) :
    combineOpt (combineOpt o v1) v2 = combineOpt o (v1 ++ v2) := by
  cases o with
  | some xs => simp [combineOpt, List.append_assoc]
  | none =>
      cases v1 with
      | nil => simp [combineOpt]
      | cons x xs =>
          simp [combineOpt]

theorem lookupInfl_mapAppend (m : InflMap) (k2 k : String) (v : String × String) :
    lookupInfl (mapAppend m k2 v) k =
      if k = k2 then some (((lookupInfl m k2).getD []) ++ [v])
      else lookupInfl m k := by
  induction m with
  | nil =>
      by_cases hk : k = k2
      · subst hk
        simp [mapAppend, lookupInfl, List.find?]
      · have hne : (k2 == k) = false := by
          simp
          exact fun h => hk h.symm
        simp [mapAppend, lookupInfl, List.find?, hne, hk]
  | cons pr rest ih =>
      by_cases hp : (pr.1 == k2) = true
      · have hpk2 : pr.1 = k2 := by simpa using hp
        by_cases hk : k = k2
        · subst hk
          simp [mapAppend, hp, lookupInfl, List.find?, hpk2]
        · have hprk : (pr.1 == k) = false := by
            simp [hpk2]
            exact fun h => hk h.symm
          simp [mapAppend, hp, lookupInfl, List.find?, hprk, hk]
      · by_cases hk : k = k2
        · subst hk
          have hprk : (pr.1 == k) = false := by simpa using hp
          simp only [mapAppend, hp, if_false, Bool.false_eq_true]
          simp only [lookupInfl, List.find?, hprk]
          have := ih
          simp only [lookupInfl] at this
          simpa using this
        · simp only [mapAppend, hp, if_false, Bool.false_eq_true]
          by_cases hprk : (pr.1 == k) = true
          · simp [lookupInfl, List.find?, hprk, hk]
          · have hprk2 : (pr.1 == k) = false := by simpa using hprk
            simp only [lookupInfl, List.find?, hprk2]
            have := ih
            simp only [lookupInfl] at this
            simpa [hk] using this

theorem lookupInfl_processLine (m : InflMap) (line : String) (k : String) :
    lookupInfl (processLine m line) k = combineOpt (lookupInfl m k) (lineTriples k line) := by
  unfold processLine lineTriples parseLine
  by_cases hskip : ((trimStr line).data.isEmpty || lineStartsHash line) = true
  · simp [hskip, combineOpt_nil]
  · simp only [hskip, Bool.false_eq_true, if_false]
    cases hsplit : splitTab line.data [] with
    | nil => simp [combineOpt_nil]
    | cons a rest1 =>
        cases rest1 with
        | nil => simp [combineOpt_nil]
        | cons b rest2 =>
            cases rest2 with
            | nil => simp [combineOpt_nil]
            | cons c rest3 =>
                simp only []
                rw [lookupInfl_mapAppend]
                by_cases hkey : k = strLower a
                · simp only [hkey, if_pos rfl]
                  cases ho : lookupInfl m (strLower a) <;> simp [combineOpt, ho]
                · have hkey2 : ¬ (strLower a = k) := fun h => hkey h.symm
                  simp [hkey, hkey2, combineOpt_nil]

theorem lookupInfl_foldl (lines : List String) (m : InflMap) (k : String) :
    lookupInfl (lines.foldl processLine m) k =
      combineOpt (lookupInfl m k) (wellFormedValues k lines) := by
  induction lines generalizing m with
  | nil => simp [wellFormedValues, combineOpt_nil]
  | cons line rest ih =>
      simp only [List.foldl_cons]
      rw [ih, lookupInfl_processLine, combineOpt_assoc]
      have hsplit : wellFormedValues k (line :: rest) =
          lineTriples k line ++ wellFormedValues k rest := by
        unfold wellFormedValues lineTriples
        cases hp : parseLine line with
        | none => simp [List.filterMap_cons, hp]
        | some t =>
            by_cases ht : t.1 = k
            · simp [List.filterMap_cons, hp, ht]
            · simp [List.filterMap_cons, hp, ht]
      rw [hsplit]

/-- Claim C7: loading an inflection source never fails on line content, and
the resulting index covers exactly the well-formed lines (at least three
tab-separated fields, not blank, not `#`-prefixed): for every key, the
candidate list is present exactly when some well-formed line has that
(lowercased) inflected form, and then equals the lowercased-lemma/tag pairs
of those lines in file order, without deduplication. -/
theorem load_inflection_map_characterization (lines : List String) (k : String) :
    ∃ idx, load_inflection_map lines = Except.ok idx ∧
      lookupInfl idx k =
        (if (wellFormedValues k lines).isEmpty then none
         else some (wellFormedValues k lines)) := by
  refine ⟨lines.foldl processLine [], rfl, ?_⟩
  rw [lookupInfl_foldl]
  have hnone : lookupInfl [] k = none := rfl
  rw [hnone]
  rfl

end DictApp
